import Mathlib

/-!
# kubernetes-pfx-tls: the reconciler and the PFX to PEM converter

A shallow embedding of `pkg/controller/controller.go` and
`pkg/converter/converter.go`.

* Go strings are `String`, `[]byte` is `List Nat` (a nil slice and an empty
  slice are both `[]`; the code only ever asks for `len`).
* A Go map is `Option (List (String × V))`: `none` is the nil map, reads of
  a nil map yield the zero value, the first entry for a key is the binding.
* `*corev1.Secret` is an index into a heap of `Secret` values, so that the
  difference between mutating the cached object and mutating a copy is
  visible.
* Everything that lives outside the repository (the lister, the API client,
  `cache.SplitMetaNamespaceKey`, `pkcs12.DecodeChain`,
  `x509.MarshalPKCS8PrivateKey`, `pem.EncodeToMemory`, the `string(bytes)`
  conversion) is a field of `Env`.
* Calls with an outside effect are recorded, in program order, as `Event`s.
  `klog` output, contexts and timeouts are not modelled.
-/

namespace PfxTls

/-! ## Data model -/

/-- Go `[]byte`. -/
abbrev Bytes := List Nat

/-- Go `error` values: errors produced by a collaborator outside the
repository, `fmt.Errorf` without `%w`, and `fmt.Errorf` wrapping a cause. -/
inductive GoError where
  | external (notFound : Bool) (text : String)
  | errorf (text : String)
  | wrapf (text : String) (cause : GoError)
  deriving DecidableEq, Repr

/-- The method `err.Error()`; for a wrapping error the cause is rendered in
place of the trailing `%w`. -/
def GoError.Error : GoError → String
  | .external _ t => t
  | .errorf t => t
  | .wrapf t c => t ++ c.Error

/-- The predicate `errors.IsNotFound`. -/
def IsNotFound : GoError → Bool
  | .external nf _ => nf
  | .errorf _ => false
  | .wrapf _ c => IsNotFound c

deriving instance DecidableEq for Except

/-- Go `map[string]V`; `none` is the nil map. -/
abbrev GoMap (V : Type) := Option (List (String × V))

/-- First binding of `k` in an entry list. -/
def lookupEntry {V : Type} (k : String) : List (String × V) → Option V
  | [] => none
  | (k', v) :: t => if k' = k then some v else lookupEntry k t

/-- Entry list after `m[k] = v`. -/
def assignEntry {V : Type} (k : String) (v : V) : List (String × V) → List (String × V)
  | [] => [(k, v)]
  | (k', v') :: t => if k' = k then (k, v) :: t else (k', v') :: assignEntry k v t

/-- The two-result read `v, exists := m[k]`. -/
def GoMap.get? {V : Type} (m : GoMap V) (k : String) : Option V :=
  match m with
  | none => none
  | some l => lookupEntry k l

/-- The one-result read `m[k]` of a string-valued map (zero value `""`). -/
def GoMap.index (m : GoMap String) (k : String) : String :=
  (m.get? k).getD ""

/-- The assignment `m[k] = v`. -/
def GoMap.assign {V : Type} (m : GoMap V) (k : String) (v : V) : GoMap V :=
  some (assignEntry k v (m.getD []))

/-- The fields of `corev1.Secret` the controller touches (`SecretType` is the
Go field `Type`). -/
structure Secret where
  Namespace : String
  Name : String
  Annotations : GoMap String
  Data : GoMap Bytes
  SecretType : String
  deriving DecidableEq, Repr

instance : Inhabited Secret := ⟨⟨"", "", none, none, ""⟩⟩

/-- Go pointer `*corev1.Secret`. -/
abbrev Ptr := Nat

/-- The objects reachable through `*corev1.Secret` pointers. -/
abbrev Heap := List Secret

/-- Dereference. -/
def Heap.read (h : Heap) (p : Ptr) : Secret := h.getD p default

/-- Field update through a pointer. -/
def Heap.modify (h : Heap) (p : Ptr) (f : Secret → Secret) : Heap :=
  h.set p (f (h.read p))

/-- The method `secret.DeepCopy()`: a fresh object with the same contents
(nil maps stay nil). -/
def DeepCopy (h : Heap) (p : Ptr) : Heap × Ptr := (h ++ [h.read p], h.length)

/-- An `x509.Certificate`; only `Raw` is used. -/
structure Certificate where
  Raw : Bytes
  deriving DecidableEq, Repr

/-- A decoded private key (an `interface{}` in the source). -/
structure PrivateKey where
  handle : Bytes
  deriving DecidableEq, Repr

/-- An item of the work queue (`interface{}`): a string key, or anything
else, carried as its `%#v` rendering. -/
inductive Item where
  | str (key : String)
  | other (goSyntax : String)
  deriving DecidableEq, Repr

/-- Calls with an outside effect. -/
inductive Event where
  | handleError (e : GoError)
  | getSecret (ns name : String)
  | convert (pfxData : Bytes) (password : String)
  | update (ns : String) (obj : Secret)
  | done (obj : Item)
  | forget (obj : Item)
  | addRateLimited (key : String)
  deriving DecidableEq, Repr

/-- Collaborators outside the repository. -/
structure Env where
  splitMetaNamespaceKey : String → Except GoError (String × String)
  listerGet : String → String → Except GoError Ptr
  clientGet : String → String → Except GoError Secret
  clientUpdate : String → Secret → Option GoError
  decodeChain : Bytes → String → Except GoError (PrivateKey × Certificate × List Certificate)
  marshalPKCS8PrivateKey : PrivateKey → Except GoError Bytes
  pemEncodeToMemory : String → Bytes → Bytes
  stringOfBytes : Bytes → String

/-- Result of a controller call: the returned `error`, the effects performed,
the heap afterwards. -/
structure Outcome where
  err : Option GoError
  events : List Event
  heap : Heap
  deriving DecidableEq, Repr

/-! ## Constants of `pkg/converter/converter.go` -/

def AnnotationPFXConvert : String := "pfx-tls.kubernetes.io/convert"
def AnnotationPFXPassword : String := "pfx-tls.kubernetes.io/password"
def AnnotationPFXPasswordSecretName : String := "pfx-tls.kubernetes.io/password-secret-name"
def AnnotationPFXPasswordSecretKey : String := "pfx-tls.kubernetes.io/password-secret-key"
def AnnotationPFXDataKey : String := "pfx-tls.kubernetes.io/pfx-key"
def AnnotationConverted : String := "pfx-tls.kubernetes.io/converted"

/-- The constant `corev1.SecretTypeTLS`. -/
def SecretTypeTLS : String := "kubernetes.io/tls"

/-! ## `pkg/converter/converter.go` -/

/-- The loop `for _, caCert := range caCerts` of `ConvertPFXToPEM`. -/
def caBundleLoop (env : Env) (caCerts : List Certificate) (caBundle : Bytes) : Bytes :=
  caCerts.foldl (fun acc caCert => acc ++ env.pemEncodeToMemory "CERTIFICATE" caCert.Raw) caBundle

/-- The method `PFXConverter.ConvertPFXToPEM`; the result is
`(certPEM, keyPEM, caPEM)`. -/
def ConvertPFXToPEM (env : Env) (pfxData : Bytes) (password : String) :
    Except GoError (Bytes × Bytes × Bytes) :=
  match env.decodeChain pfxData password with
  | .error err => .error (.wrapf "failed to decode PFX: " err)
  | .ok (privateKey, certificate, caCerts) =>
    let certPEM := env.pemEncodeToMemory "CERTIFICATE" certificate.Raw
    match env.marshalPKCS8PrivateKey privateKey with
    | .error err => .error (.wrapf "failed to marshal private key: " err)
    | .ok keyBytes =>
      let keyPEM := env.pemEncodeToMemory "PRIVATE KEY" keyBytes
      let caPEM := if caCerts.length > 0 then caBundleLoop env caCerts [] else []
      .ok (certPEM, keyPEM, caPEM)

/-! ## `pkg/controller/controller.go` -/

/-- The method `getPassword`. -/
def getPassword (env : Env) (h : Heap) (secret : Ptr) : Except GoError String × List Event :=
  match (h.read secret).Annotations.get? AnnotationPFXPassword with
  | some password => (.ok password, [])
  | none =>
    let secretName := (h.read secret).Annotations.index AnnotationPFXPasswordSecretName
    let secretKey := (h.read secret).Annotations.index AnnotationPFXPasswordSecretKey
    if secretName ≠ "" ∧ secretKey ≠ "" then
      match env.clientGet (h.read secret).Namespace secretName with
      | .error err =>
        (.error (.wrapf "failed to get password secret: " err),
          [.getSecret (h.read secret).Namespace secretName])
      | .ok passwordSecret =>
        match passwordSecret.Data.get? secretKey with
        | none =>
          (.error (.errorf ("password key \x27" ++ secretKey ++ "\x27 not found in secret \x27"
              ++ secretName ++ "\x27")),
            [.getSecret (h.read secret).Namespace secretName])
        | some passwordData =>
          (.ok (env.stringOfBytes passwordData), [.getSecret (h.read secret).Namespace secretName])
    else
      (.ok "", [])

/-- The statements of `processSecret` between `DeepCopy` and the `Update`
call, applied to the heap that already holds the copy. -/
def buildUpdated (h1 : Heap) (secretCopy : Ptr) (certPEM keyPEM caPEM : Bytes) : Heap :=
  let h2 :=
    if (h1.read secretCopy).Data.isNone then
      h1.modify secretCopy (fun c => { c with Data := some [] })
    else h1
  let h3 := h2.modify secretCopy (fun c => { c with Data := c.Data.assign "tls.crt" certPEM })
  let h4 := h3.modify secretCopy (fun c => { c with Data := c.Data.assign "tls.key" keyPEM })
  let h5 :=
    if caPEM.length > 0 then
      h4.modify secretCopy (fun c => { c with Data := c.Data.assign "ca.crt" caPEM })
    else h4
  let h6 := h5.modify secretCopy (fun c => { c with SecretType := SecretTypeTLS })
  let h7 :=
    if (h6.read secretCopy).Annotations.isNone then
      h6.modify secretCopy (fun c => { c with Annotations := some [] })
    else h6
  h7.modify secretCopy
    (fun c => { c with Annotations := c.Annotations.assign AnnotationConverted "true" })

/-- The local `pfxKey` of `processSecret`: the `pfx-key` annotation, with
`"pfx"` in place of the empty string. -/
def pfxKeyOf (s : Secret) : String :=
  if s.Annotations.index AnnotationPFXDataKey = "" then "pfx"
  else s.Annotations.index AnnotationPFXDataKey

/-- The method `processSecret`. -/
def processSecret (env : Env) (h : Heap) (secret : Ptr) : Outcome :=
  let pfxKey := pfxKeyOf (h.read secret)
  match (h.read secret).Data.get? pfxKey with
  | none =>
    ⟨some (.errorf ("PFX data not found in secret at key \x27" ++ pfxKey ++ "\x27")), [], h⟩
  | some pfxData =>
    match getPassword env h secret with
    | (.error err, evs) => ⟨some (.wrapf "failed to get password: " err), evs, h⟩
    | (.ok password, evs) =>
      match ConvertPFXToPEM env pfxData password with
      | .error err =>
        ⟨some (.wrapf "failed to convert PFX to PEM: " err),
          evs ++ [.convert pfxData password], h⟩
      | .ok (certPEM, keyPEM, caPEM) =>
        let h1 := (DeepCopy h secret).1
        let secretCopy := (DeepCopy h secret).2
        let h8 := buildUpdated h1 secretCopy certPEM keyPEM caPEM
        let evs8 := evs ++ [.convert pfxData password,
          .update (h8.read secret).Namespace (h8.read secretCopy)]
        match env.clientUpdate (h8.read secret).Namespace (h8.read secretCopy) with
        | some err => ⟨some (.wrapf "failed to update secret: " err), evs8, h8⟩
        | none => ⟨none, evs8, h8⟩

/-- The method `shouldProcessSecret`. -/
def shouldProcessSecret (h : Heap) (secret : Ptr) : Bool :=
  if (h.read secret).Annotations.isNone then false
  else
    match (h.read secret).Annotations.get? AnnotationPFXConvert with
    | some convertValue => decide (convertValue = "true")
    | none => false

/-- The method `syncHandler`. -/
def syncHandler (env : Env) (h : Heap) (key : String) : Outcome :=
  match env.splitMetaNamespaceKey key with
  | .error _ => ⟨none, [.handleError (.errorf ("invalid resource key: " ++ key))], h⟩
  | .ok (ns, name) =>
    match env.listerGet ns name with
    | .error err =>
      if IsNotFound err then
        ⟨none, [.handleError
          (.errorf ("secret \x27" ++ key ++ "\x27 in work queue no longer exists"))], h⟩
      else ⟨some err, [], h⟩
    | .ok secret =>
      if !shouldProcessSecret h secret then ⟨none, [], h⟩
      else if (h.read secret).Annotations.index AnnotationConverted = "true" then ⟨none, [], h⟩
      else processSecret env h secret

/-- The method `processNextWorkItem`; `got` is what `c.workqueue.Get()`
returned. The result pairs the returned `bool` with the effects. -/
def processNextWorkItem (env : Env) (h : Heap) (got : Item × Bool) : Bool × Outcome :=
  if got.2 then (false, ⟨none, [], h⟩)
  else
    match got.1 with
    | .other r =>
      let e := GoError.errorf ("expected string in workqueue but got " ++ r)
      (true, ⟨none, [.forget got.1, .handleError e, .done got.1], h⟩)
    | .str key =>
      let r := syncHandler env h key
      match r.err with
      | some err =>
        let e := GoError.errorf
          ("error syncing \x27" ++ key ++ "\x27: " ++ err.Error ++ ", requeuing")
        (true, ⟨some e, r.events ++ [.addRateLimited key, .done got.1, .handleError e], r.heap⟩)
      | none => (true, ⟨none, r.events ++ [.forget got.1, .done got.1], r.heap⟩)

/-! ## Observations on effect traces -/

/-- The records submitted to the store by a trace, oldest first. -/
def submitted : List Event → List Secret
  | [] => []
  | .update _ obj :: t => obj :: submitted t
  | _ :: t => submitted t

/-- The calls made on the work queue by a trace, oldest first. -/
def queueCalls : List Event → List Event
  | [] => []
  | .done obj :: t => .done obj :: queueCalls t
  | .forget obj :: t => .forget obj :: queueCalls t
  | .addRateLimited key :: t => .addRateLimited key :: queueCalls t
  | _ :: t => queueCalls t

/-- Re-parsing of PEM text as the round-trip property of the specification
understands it (the repository has no parser of its own): `pemDecode` plays
`pem.Decode`, returning the first block and the remaining input; blocks are
collected until none is found or `fuel` runs out. -/
def reparse (pemDecode : Bytes → Option ((String × Bytes) × Bytes)) :
    Nat → Bytes → List (String × Bytes)
  | 0, _ => []
  | fuel + 1, data =>
    match pemDecode data with
    | none => []
    | some (block, rest) => block :: reparse pemDecode fuel rest

/-- The contents of the copy after `buildUpdated`, as a function of its
contents before (related to the code by `buildUpdated_snoc`). -/
def updatedValue (s : Secret) (certPEM keyPEM caPEM : Bytes) : Secret :=
  { s with
    Data :=
      if caPEM.length > 0 then
        GoMap.assign (GoMap.assign (GoMap.assign (if s.Data.isNone then some [] else s.Data)
          "tls.crt" certPEM) "tls.key" keyPEM) "ca.crt" caPEM
      else
        GoMap.assign (GoMap.assign (if s.Data.isNone then some [] else s.Data)
          "tls.crt" certPEM) "tls.key" keyPEM,
    SecretType := SecretTypeTLS,
    Annotations :=
      GoMap.assign (if s.Annotations.isNone then some [] else s.Annotations)
        AnnotationConverted "true" }

/-! ## Repeated reconciliation over a cache that follows the writes -/

/-- Address of the cached record `ns/name`, if the cache holds one. -/
def cacheIndex (ns name : String) : List Secret → Option Ptr
  | [] => none
  | s :: t =>
    if s.Namespace = ns ∧ s.Name = name then some 0
    else (cacheIndex ns name t).map (fun i => i + 1)

/-- The environment of one reconciliation: `base` with the lister answering
from `cache` (whose records sit at the addresses `0 .. cache.length - 1`). -/
def withCache (base : Env) (cache : List Secret) : Env :=
  { base with
    listerGet := fun ns name =>
      match cacheIndex ns name cache with
      | some p => .ok p
      | none => .error (.external true ("secret \x22" ++ name ++ "\x22 not found")) }

/-- The cache after the store accepted `obj`: the record of that identity is
replaced by what was written. -/
def applyWrite (cache : List Secret) (obj : Secret) : List Secret :=
  cache.map (fun s => if s.Namespace = obj.Namespace ∧ s.Name = obj.Name then obj else s)

/-- The records a call wrote: those it submitted, when it returned nil. -/
def writesOf (r : Outcome) : List Secret :=
  if r.err.isNone then submitted r.events else []

/-- One reconciliation of `key` against `cache`: the cache afterwards (the
cached objects as the call left them, updated by the writes) and the
writes. -/
def reconcileStep (base : Env) (cache : List Secret) (key : String) :
    List Secret × List Secret :=
  let r := syncHandler (withCache base cache) cache key
  ((writesOf r).foldl applyWrite (r.heap.take cache.length), writesOf r)

/-- A sequence of reconciliations, each with its own collaborators and key;
the result is the final cache and all writes, oldest first. -/
def reconcileAll : List (Env × String) → List Secret → List Secret × List Secret
  | [], cache => (cache, [])
  | (base, key) :: rest, cache =>
    let step := reconcileStep base cache key
    let tail := reconcileAll rest step.1
    (tail.1, step.2 ++ tail.2)

/-- The writes among `ws` that went to the record `ns/name`. -/
def writesTo (ns name : String) (ws : List Secret) : List Secret :=
  ws.filter (fun o => decide (o.Namespace = ns ∧ o.Name = name))

/-! ## A concrete world, used to instantiate the theorems -/

/-- A toy stand-in for `pem.EncodeToMemory`: a tag for the block type, the
payload length, the payload. -/
def toyPemEncode (blockType : String) (b : Bytes) : Bytes :=
  (if blockType = "CERTIFICATE" then 0 else 1) :: b.length :: b

/-- The matching stand-in for `pem.Decode`: the first block and the rest. -/
def toyPemDecode : Bytes → Option ((String × Bytes) × Bytes)
  | t :: n :: xs =>
    if n ≤ xs.length then
      some ((if t = 0 then "CERTIFICATE" else "PRIVATE KEY", xs.take n), xs.drop n)
    else none
  | _ => none

/-- The record `default/web-tls` of the end-to-end scenario. -/
def webTls : Secret :=
  { Namespace := "default", Name := "web-tls",
    Annotations := some [(AnnotationPFXConvert, "true"), (AnnotationPFXPassword, "changeit")],
    Data := some [("pfx", [48, 130, 9])], SecretType := "Opaque" }

/-- A record holding a password under the key `pw`. -/
def pfxPass : Secret :=
  { Namespace := "default", Name := "pfx-pass", Annotations := none,
    Data := some [("pw", [99])], SecretType := "Opaque" }

/-- A world in which the cache holds `webTls` at address 0, the bundle
`[48, 130, 9]` opens with `changeit` to a key, a leaf and a chain of two, and
every write succeeds. -/
def sampleEnv : Env :=
  { splitMetaNamespaceKey := fun key =>
      if key = "default/web-tls" then .ok ("default", "web-tls")
      else if key = "default/gone" then .ok ("default", "gone")
      else if key = "default/flaky" then .ok ("default", "flaky")
      else .error (.errorf ("unexpected key format: " ++ key)),
    listerGet := fun ns name =>
      if ns = "default" ∧ name = "web-tls" then .ok 0
      else if name = "flaky" then .error (.external false "cache unavailable")
      else .error (.external true ("secret " ++ name ++ " not found")),
    clientGet := fun ns name =>
      if ns = "default" ∧ name = "pfx-pass" then .ok pfxPass
      else .error (.external true ("secrets " ++ name ++ " not found")),
    clientUpdate := fun _ _ => none,
    decodeChain := fun pfxData password =>
      if pfxData = [48, 130, 9] ∧ password = "changeit" then
        .ok (⟨[7]⟩, ⟨[1, 2]⟩, [⟨[3]⟩, ⟨[4, 5]⟩])
      else .error (.external false "pkcs12: decryption password incorrect"),
    marshalPKCS8PrivateKey := fun k => .ok (48 :: k.handle),
    pemEncodeToMemory := toyPemEncode,
    stringOfBytes := fun b => String.mk (b.map Char.ofNat) }

/-- The record `webTls` with its password kept in `pfx-pass` under `pw`. -/
def webTlsByRef : Secret :=
  { webTls with
    Annotations := some [(AnnotationPFXConvert, "true"),
      (AnnotationPFXPasswordSecretName, "pfx-pass"), (AnnotationPFXPasswordSecretKey, "pw")] }

/-- The record `webTls` with both cross-reference annotations present, the
name one blank. -/
def webTlsBlankRef : Secret :=
  { webTls with
    Annotations := some [(AnnotationPFXConvert, "true"),
      (AnnotationPFXPasswordSecretName, ""), (AnnotationPFXPasswordSecretKey, "pw")] }

/-- The record `webTls` with a blank `pfx-key` annotation. -/
def webTlsBlankKey : Secret :=
  { webTls with
    Annotations := some [(AnnotationPFXConvert, "true"), (AnnotationPFXPassword, "changeit"),
      (AnnotationPFXDataKey, "")] }

/-- The record `webTls` with `pfx-key` naming a key its data does not have. -/
def webTlsNoBundle : Secret :=
  { webTls with
    Annotations := some [(AnnotationPFXConvert, "true"), (AnnotationPFXPassword, "changeit"),
      (AnnotationPFXDataKey, "bundle.p12")] }

/-- The record `webTls` as the controller writes it in `sampleEnv`. -/
def webTlsConverted : Secret :=
  { webTls with
    Annotations := some [(AnnotationPFXConvert, "true"), (AnnotationPFXPassword, "changeit"),
      (AnnotationConverted, "true")],
    Data := some [("pfx", [48, 130, 9]), ("tls.crt", [0, 2, 1, 2]), ("tls.key", [1, 2, 48, 7]),
      ("ca.crt", [0, 1, 3, 0, 2, 4, 5])],
    SecretType := "kubernetes.io/tls" }

/-! ## Maps and heaps -/

theorem lookupEntry_assignEntry_same {V : Type} (k : String) (v : V) (l : List (String × V)) :
    lookupEntry k (assignEntry k v l) = some v := by
  induction l with
  | nil => simp [assignEntry, lookupEntry]
  | cons e t ih =>
    obtain ⟨k', v'⟩ := e
    by_cases hk : k' = k
    · simp [assignEntry, lookupEntry, hk]
    · simp [assignEntry, lookupEntry, hk, ih]

theorem lookupEntry_assignEntry_other {V : Type} (k q : String) (v : V) (l : List (String × V))
    (hq : q ≠ k) : lookupEntry q (assignEntry k v l) = lookupEntry q l := by
  induction l with
  | nil => simp [assignEntry, lookupEntry, Ne.symm hq]
  | cons e t ih =>
    obtain ⟨k', v'⟩ := e
    by_cases hk : k' = k
    · subst hk
      simp [assignEntry, lookupEntry, Ne.symm hq]
    · by_cases hq' : k' = q
      · subst hq'
        simp [assignEntry, lookupEntry, hk]
      · simp [assignEntry, lookupEntry, hk, hq', ih]

theorem get?_assign_same {V : Type} (m : GoMap V) (k : String) (v : V) :
    (m.assign k v).get? k = some v := by
  simp [GoMap.assign, GoMap.get?, lookupEntry_assignEntry_same]

theorem get?_assign_other {V : Type} (m : GoMap V) (k q : String) (v : V) (hq : q ≠ k) :
    (m.assign k v).get? q = m.get? q := by
  cases m with
  | none => simp [GoMap.assign, GoMap.get?, assignEntry, lookupEntry, Ne.symm hq]
  | some l => simp [GoMap.assign, GoMap.get?, lookupEntry_assignEntry_other k q v l hq]

theorem length_modify (h : Heap) (p : Ptr) (f : Secret → Secret) :
    (h.modify p f).length = h.length := by
  simp [Heap.modify]

theorem read_modify_same (h : Heap) (p : Ptr) (f : Secret → Secret) (hp : p < h.length) :
    (h.modify p f).read p = f (h.read p) := by
  simp [Heap.modify, Heap.read, List.getD, hp]

theorem read_modify_other (h : Heap) (p q : Ptr) (f : Secret → Secret) (hq : q ≠ p) :
    (h.modify p f).read q = h.read q := by
  simp [Heap.modify, Heap.read, List.getD, List.getElem?_set_ne (Ne.symm hq)]

theorem read_snoc_old (h : Heap) (x : Secret) (q : Ptr) (hq : q < h.length) :
    Heap.read (h ++ [x]) q = h.read q := by
  simp [Heap.read, List.getD, List.getElem?_append_left hq]

theorem read_snoc_new (h : Heap) (x : Secret) : Heap.read (h ++ [x]) h.length = x := by
  simp [Heap.read, List.getD]

theorem modify_snoc_new (h : Heap) (x : Secret) (f : Secret → Secret) :
    Heap.modify (h ++ [x]) h.length f = h ++ [f x] := by
  simp [Heap.modify, read_snoc_new]

theorem buildUpdated_snoc (h : Heap) (x : Secret) (certPEM keyPEM caPEM : Bytes) :
    buildUpdated (h ++ [x]) h.length certPEM keyPEM caPEM
      = h ++ [updatedValue x certPEM keyPEM caPEM] := by
  unfold buildUpdated updatedValue
  simp only []
  by_cases h1n : x.Data.isNone <;> by_cases h2n : x.Annotations.isNone <;>
    by_cases h3n : caPEM.length > 0 <;>
    simp [read_snoc_new, modify_snoc_new, h1n, h2n, h3n]

theorem namespace_read_snoc (h : Heap) (p : Ptr) (certPEM keyPEM caPEM : Bytes) :
    (Heap.read (h ++ [updatedValue (h.read p) certPEM keyPEM caPEM]) p).Namespace
      = (h.read p).Namespace := by
  rcases Nat.lt_trichotomy p h.length with hlt | heq | hgt
  · rw [read_snoc_old h _ p hlt]
  · subst heq
    rw [read_snoc_new]
    rfl
  · have h1 : Heap.read (h ++ [updatedValue (h.read p) certPEM keyPEM caPEM]) p = default := by
      have hl : (h ++ [updatedValue (h.read p) certPEM keyPEM caPEM]).length ≤ p := by
        simp; omega
      rw [Heap.read, List.getD_eq_getElem?_getD, List.getElem?_eq_none hl]
      rfl
    have h2 : h.read p = default := by
      have hl : h.length ≤ p := by omega
      rw [Heap.read, List.getD_eq_getElem?_getD, List.getElem?_eq_none hl]
      rfl
    rw [h1, h2]

theorem get?_ensure {V : Type} (m : GoMap V) (k : String) :
    GoMap.get? (if m.isNone then some [] else m) k = m.get? k := by
  cases m <;> simp [GoMap.get?, lookupEntry]

theorem submitted_append (a b : List Event) : submitted (a ++ b) = submitted a ++ submitted b := by
  induction a with
  | nil => rfl
  | cons e t ih => cases e <;> simp [submitted, ih]

/-! ## Password resolution -/

/-- C4. Whenever the inline annotation `pfx-tls.kubernetes.io/password` is
present (with any value, the empty string included), `getPassword` returns
exactly that value, no error, and performs no effect at all (in particular no
read of another record), whatever the other annotations and the API client
are. -/
theorem getPassword_inline_precedence (env : Env) (h : Heap) (secret : Ptr) (password : String)
    (hin : (h.read secret).Annotations.get? AnnotationPFXPassword = some password) :
    getPassword env h secret = (.ok password, []) := by
  simp [getPassword, hin]

theorem getPassword_inline_precedence_witness :
    (Heap.read [{ webTls with Annotations := some [(AnnotationPFXPassword, ""),
        (AnnotationPFXPasswordSecretName, "pfx-pass"),
        (AnnotationPFXPasswordSecretKey, "pw")] }] 0).Annotations.get? AnnotationPFXPassword
      = some "" ∧
    getPassword sampleEnv [{ webTls with Annotations := some [(AnnotationPFXPassword, ""),
        (AnnotationPFXPasswordSecretName, "pfx-pass"),
        (AnnotationPFXPasswordSecretKey, "pw")] }] 0 = (.ok "", []) :=
  ⟨by decide, getPassword_inline_precedence _ _ _ _ (by decide)⟩

/-- C5, as the code has it. For a record without the inline password
annotation, write `n` and `k` for the values read at
`password-secret-name` and `password-secret-key` (the empty string when the
annotation is absent). When both are non-empty, `getPassword` reads the
record `n` of the same namespace exactly once and returns `data[k]` as the
password; a failed read or a missing key is an error, never the default.
The plain default (empty password, no read) is returned exactly when `n` or
`k` is empty, that is, when one of the annotations is absent or blank. -/
theorem getPassword_cross_reference (env : Env) (h : Heap) (secret : Ptr)
    (hin : (h.read secret).Annotations.get? AnnotationPFXPassword = none) :
    ((h.read secret).Annotations.index AnnotationPFXPasswordSecretName ≠ "" →
      (h.read secret).Annotations.index AnnotationPFXPasswordSecretKey ≠ "" →
      getPassword env h secret =
        (match env.clientGet (h.read secret).Namespace
            ((h.read secret).Annotations.index AnnotationPFXPasswordSecretName) with
          | .error err => .error (.wrapf "failed to get password secret: " err)
          | .ok passwordSecret =>
            match passwordSecret.Data.get?
                ((h.read secret).Annotations.index AnnotationPFXPasswordSecretKey) with
            | none => .error (.errorf ("password key \x27"
                ++ (h.read secret).Annotations.index AnnotationPFXPasswordSecretKey
                ++ "\x27 not found in secret \x27"
                ++ (h.read secret).Annotations.index AnnotationPFXPasswordSecretName ++ "\x27"))
            | some passwordData => .ok (env.stringOfBytes passwordData),
         [.getSecret (h.read secret).Namespace
            ((h.read secret).Annotations.index AnnotationPFXPasswordSecretName)])) ∧
    (getPassword env h secret = (.ok "", []) ↔
      ((h.read secret).Annotations.index AnnotationPFXPasswordSecretName = "" ∨
        (h.read secret).Annotations.index AnnotationPFXPasswordSecretKey = "")) := by
  constructor
  · intro hn hk
    simp only [getPassword, hin, hn, hk, ne_eq, not_false_eq_true, and_self, if_true]
    cases hc : env.clientGet (h.read secret).Namespace
        ((h.read secret).Annotations.index AnnotationPFXPasswordSecretName) with
    | error err => rfl
    | ok passwordSecret =>
      cases hd : passwordSecret.Data.get?
          ((h.read secret).Annotations.index AnnotationPFXPasswordSecretKey) <;> simp [hd]
  · by_cases hn : (h.read secret).Annotations.index AnnotationPFXPasswordSecretName = ""
    · simp [getPassword, hin, hn]
    · by_cases hk : (h.read secret).Annotations.index AnnotationPFXPasswordSecretKey = ""
      · simp [getPassword, hin, hk]
      · simp only [getPassword, hin, hn, hk, ne_eq, not_false_eq_true, and_self, if_true,
          or_self, iff_false]
        cases hc : env.clientGet (h.read secret).Namespace
            ((h.read secret).Annotations.index AnnotationPFXPasswordSecretName) with
        | error err => simp
        | ok passwordSecret =>
          cases hd : passwordSecret.Data.get?
              ((h.read secret).Annotations.index AnnotationPFXPasswordSecretKey) <;> simp [hd]

theorem getPassword_cross_reference_witness :
    (Heap.read [webTlsByRef] 0).Annotations.get? AnnotationPFXPassword = none ∧
    getPassword sampleEnv [webTlsByRef] 0 = (.ok "c", [.getSecret "default" "pfx-pass"]) :=
  ⟨by decide,
    ((getPassword_cross_reference sampleEnv [webTlsByRef] 0 (by decide)).1
      (by decide) (by decide)).trans (by decide)⟩

/-- C5, counterexample to the claim as stated. The record has no inline
password and both `password-secret-name` (blank) and `password-secret-key`
present; the read of the record named `""` would fail, so the claim demands
an error, yet `getPassword` performs no read and returns the default empty
password. -/
theorem getPassword_blank_reference_counterexample :
    (Heap.read [webTlsBlankRef] 0).Annotations.get? AnnotationPFXPassword = none ∧
    (Heap.read [webTlsBlankRef] 0).Annotations.get? AnnotationPFXPasswordSecretName = some "" ∧
    (Heap.read [webTlsBlankRef] 0).Annotations.get? AnnotationPFXPasswordSecretKey = some "pw" ∧
    sampleEnv.clientGet "default" "" = .error (.external true "secrets  not found") ∧
    getPassword sampleEnv [webTlsBlankRef] 0 = (.ok "", []) := by
  decide

/-! ## Eligibility -/

theorem processSecret_missing (env : Env) (h : Heap) (secret : Ptr)
    (hd : (h.read secret).Data.get? (pfxKeyOf (h.read secret)) = none) :
    processSecret env h secret =
      ⟨some (.errorf ("PFX data not found in secret at key \x27"
        ++ pfxKeyOf (h.read secret) ++ "\x27")), [], h⟩ := by
  simp only [processSecret, hd]

theorem processSecret_password_error (env : Env) (h : Heap) (secret : Ptr) (pfxData : Bytes)
    (err : GoError) (evs : List Event)
    (hd : (h.read secret).Data.get? (pfxKeyOf (h.read secret)) = some pfxData)
    (hp : getPassword env h secret = (.error err, evs)) :
    processSecret env h secret = ⟨some (.wrapf "failed to get password: " err), evs, h⟩ := by
  simp only [processSecret, hd, hp]

theorem processSecret_convert_error (env : Env) (h : Heap) (secret : Ptr) (pfxData : Bytes)
    (password : String) (err : GoError) (evs : List Event)
    (hd : (h.read secret).Data.get? (pfxKeyOf (h.read secret)) = some pfxData)
    (hp : getPassword env h secret = (.ok password, evs))
    (hc : ConvertPFXToPEM env pfxData password = .error err) :
    processSecret env h secret =
      ⟨some (.wrapf "failed to convert PFX to PEM: " err),
        evs ++ [.convert pfxData password], h⟩ := by
  simp only [processSecret, hd, hp, hc]

theorem processSecret_converted (env : Env) (h : Heap) (secret : Ptr) (pfxData : Bytes)
    (password : String) (certPEM keyPEM caPEM : Bytes) (evs : List Event)
    (hd : (h.read secret).Data.get? (pfxKeyOf (h.read secret)) = some pfxData)
    (hp : getPassword env h secret = (.ok password, evs))
    (hc : ConvertPFXToPEM env pfxData password = .ok (certPEM, keyPEM, caPEM)) :
    processSecret env h secret =
      ⟨(env.clientUpdate (h.read secret).Namespace
          (updatedValue (h.read secret) certPEM keyPEM caPEM)).map
          (GoError.wrapf "failed to update secret: "),
        evs ++ [.convert pfxData password,
          .update (h.read secret).Namespace (updatedValue (h.read secret) certPEM keyPEM caPEM)],
        h ++ [updatedValue (h.read secret) certPEM keyPEM caPEM]⟩ := by
  simp only [processSecret, hd, hp, hc, DeepCopy, buildUpdated_snoc, read_snoc_new,
    namespace_read_snoc]
  cases env.clientUpdate (h.read secret).Namespace
      (updatedValue (h.read secret) certPEM keyPEM caPEM) <;> rfl

/-- Whatever `processSecret` does, it is told apart from a silent skip: it
returns an error or performs a conversion. -/
theorem processSecret_ne_skip (env : Env) (h : Heap) (secret : Ptr) :
    processSecret env h secret ≠ ⟨none, [], h⟩ := by
  cases hd : (h.read secret).Data.get? (pfxKeyOf (h.read secret)) with
  | none => simp [processSecret_missing env h secret hd]
  | some pfxData =>
    rcases hp : getPassword env h secret with ⟨res, evs⟩
    cases res with
    | error err => simp [processSecret_password_error env h secret pfxData err evs hd hp]
    | ok password =>
      cases hc : ConvertPFXToPEM env pfxData password with
      | error err =>
        simp [processSecret_convert_error env h secret pfxData password err evs hd hp hc]
      | ok out =>
        obtain ⟨certPEM, keyPEM, caPEM⟩ := out
        simp [processSecret_converted env h secret pfxData password certPEM keyPEM caPEM evs
          hd hp hc]

theorem shouldProcessSecret_iff (h : Heap) (secret : Ptr) :
    shouldProcessSecret h secret = true ↔
      (h.read secret).Annotations.get? AnnotationPFXConvert = some "true" := by
  unfold shouldProcessSecret
  generalize (h.read secret).Annotations = a
  cases a with
  | none => simp [GoMap.get?]
  | some l =>
    cases hc : GoMap.get? (some l) AnnotationPFXConvert <;> simp [hc]

theorem syncHandler_of_eligible (env : Env) (h : Heap) (key ns name : String) (secret : Ptr)
    (hsplit : env.splitMetaNamespaceKey key = .ok (ns, name))
    (hget : env.listerGet ns name = .ok secret)
    (hc : (h.read secret).Annotations.get? AnnotationPFXConvert = some "true")
    (hd : (h.read secret).Annotations.index AnnotationConverted ≠ "true") :
    syncHandler env h key = processSecret env h secret := by
  simp [syncHandler, hsplit, hget, (shouldProcessSecret_iff h secret).2 hc, hd]

theorem syncHandler_of_ineligible (env : Env) (h : Heap) (key ns name : String) (secret : Ptr)
    (hsplit : env.splitMetaNamespaceKey key = .ok (ns, name))
    (hget : env.listerGet ns name = .ok secret)
    (hne : ¬ ((h.read secret).Annotations.get? AnnotationPFXConvert = some "true" ∧
        (h.read secret).Annotations.index AnnotationConverted ≠ "true")) :
    syncHandler env h key = ⟨none, [], h⟩ := by
  have hsp := shouldProcessSecret_iff h secret
  by_cases hc : (h.read secret).Annotations.get? AnnotationPFXConvert = some "true"
  · have hd : (h.read secret).Annotations.index AnnotationConverted = "true" := by
      by_contra hd
      exact hne ⟨hc, hd⟩
    simp [syncHandler, hsplit, hget, hsp.2 hc, hd]
  · have hb : shouldProcessSecret h secret = false := by
      cases hv : shouldProcessSecret h secret with
      | false => rfl
      | true => exact absurd (hsp.1 hv) hc
    simp [syncHandler, hsplit, hget, hb]

/-- C1. For a key that decodes to `(ns, name)` and whose record is found in
the cache, `syncHandler` hands the record to `processSecret` if and only if
its annotation `convert` is present and equal to `"true"` and its annotation
`converted` is not `"true"`; in every other case (nil annotation map,
`convert` absent or any other string) it returns nil with no effect at all:
no password lookup, no conversion, no write, heap untouched. -/
theorem syncHandler_processes_iff_eligible (env : Env) (h : Heap) (key ns name : String)
    (secret : Ptr) (hsplit : env.splitMetaNamespaceKey key = .ok (ns, name))
    (hget : env.listerGet ns name = .ok secret) :
    (syncHandler env h key = processSecret env h secret ↔
      ((h.read secret).Annotations.get? AnnotationPFXConvert = some "true" ∧
        (h.read secret).Annotations.index AnnotationConverted ≠ "true")) ∧
    (¬ ((h.read secret).Annotations.get? AnnotationPFXConvert = some "true" ∧
        (h.read secret).Annotations.index AnnotationConverted ≠ "true") →
      syncHandler env h key = ⟨none, [], h⟩) := by
  have hskip := processSecret_ne_skip env h secret
  refine ⟨⟨fun hEq => ?_, fun he =>
    syncHandler_of_eligible env h key ns name secret hsplit hget he.1 he.2⟩,
    syncHandler_of_ineligible env h key ns name secret hsplit hget⟩
  by_contra hne
  exact hskip (hEq.symm.trans
    (syncHandler_of_ineligible env h key ns name secret hsplit hget hne))

theorem syncHandler_processes_iff_eligible_witness :
    sampleEnv.splitMetaNamespaceKey "default/web-tls" = .ok ("default", "web-tls") ∧
    sampleEnv.listerGet "default" "web-tls" = .ok 0 ∧
    syncHandler sampleEnv [{ webTls with Annotations := some [(AnnotationPFXConvert, "True")] }]
      "default/web-tls"
      = ⟨none, [], [{ webTls with Annotations := some [(AnnotationPFXConvert, "True")] }]⟩ :=
  ⟨by decide, by decide,
    (syncHandler_processes_iff_eligible sampleEnv _ "default/web-tls" "default" "web-tls" 0
      (by decide) (by decide)).2 (by decide)⟩

/-! ## Missing bundle -/

/-- C6, as the code has it. The bundle key is the value of the `pfx-key`
annotation when that value is non-empty, and `"pfx"` when the annotation is
absent or blank. For an eligible record whose data has no entry at that key,
`processSecret` (and `syncHandler` on a key leading to the record) returns a
non-nil error having resolved no password, called no converter and written
nothing, and leaves the heap as it was, so `converted` is not set. -/
theorem processSecret_missing_bundle (env : Env) (h : Heap) (key ns name : String)
    (secret : Ptr) (hsplit : env.splitMetaNamespaceKey key = .ok (ns, name))
    (hget : env.listerGet ns name = .ok secret)
    (hconv : (h.read secret).Annotations.get? AnnotationPFXConvert = some "true")
    (hnot : (h.read secret).Annotations.index AnnotationConverted ≠ "true")
    (hmiss : (h.read secret).Data.get?
      (if (h.read secret).Annotations.index AnnotationPFXDataKey = "" then "pfx"
        else (h.read secret).Annotations.index AnnotationPFXDataKey) = none) :
    processSecret env h secret =
      ⟨some (.errorf ("PFX data not found in secret at key \x27"
        ++ (if (h.read secret).Annotations.index AnnotationPFXDataKey = "" then "pfx"
            else (h.read secret).Annotations.index AnnotationPFXDataKey) ++ "\x27")), [], h⟩ ∧
    syncHandler env h key = processSecret env h secret := by
  refine ⟨?_, syncHandler_of_eligible env h key ns name secret hsplit hget hconv hnot⟩
  exact processSecret_missing env h secret hmiss

theorem processSecret_missing_bundle_witness :
    sampleEnv.splitMetaNamespaceKey "default/web-tls" = .ok ("default", "web-tls") ∧
    sampleEnv.listerGet "default" "web-tls" = .ok 0 ∧
    (Heap.read [webTlsNoBundle] 0).Annotations.get? AnnotationPFXConvert = some "true" ∧
    (Heap.read [webTlsNoBundle] 0).Annotations.index AnnotationConverted ≠ "true" ∧
    (Heap.read [webTlsNoBundle] 0).Data.get? "bundle.p12" = none ∧
    syncHandler sampleEnv [webTlsNoBundle] "default/web-tls" =
      ⟨some (.errorf "PFX data not found in secret at key \x27bundle.p12\x27"), [],
        [webTlsNoBundle]⟩ :=
  ⟨by decide, by decide, by decide, by decide, by decide,
    ((processSecret_missing_bundle sampleEnv [webTlsNoBundle] "default/web-tls" "default"
      "web-tls" 0 (by decide) (by decide) (by decide) (by decide) (by decide)).2).trans
      (by decide)⟩

/-- C6, counterexample to the claim as stated. The record is eligible, its
`pfx-key` annotation is present with the blank value, and its data has no
entry at that value; nevertheless `processSecret` takes the bundle found
under `"pfx"`, converts it and writes the record with `converted` set. -/
theorem processSecret_blank_key_counterexample :
    (Heap.read [webTlsBlankKey] 0).Annotations.get? AnnotationPFXConvert = some "true" ∧
    (Heap.read [webTlsBlankKey] 0).Annotations.index AnnotationConverted ≠ "true" ∧
    (Heap.read [webTlsBlankKey] 0).Annotations.get? AnnotationPFXDataKey = some "" ∧
    (Heap.read [webTlsBlankKey] 0).Data.get? "" = none ∧
    (processSecret sampleEnv [webTlsBlankKey] 0).err = none ∧
    (processSecret sampleEnv [webTlsBlankKey] 0).events =
      [.convert [48, 130, 9] "changeit",
       .update "default"
        { webTlsBlankKey with
          Annotations := some [(AnnotationPFXConvert, "true"),
            (AnnotationPFXPassword, "changeit"), (AnnotationPFXDataKey, ""),
            (AnnotationConverted, "true")],
          Data := some [("pfx", [48, 130, 9]), ("tls.crt", [0, 2, 1, 2]),
            ("tls.key", [1, 2, 48, 7]), ("ca.crt", [0, 1, 3, 0, 2, 4, 5])],
          SecretType := "kubernetes.io/tls" }] := by
  decide

/-! ## The rewritten record -/

theorem submitted_getPassword (env : Env) (h : Heap) (secret : Ptr) :
    submitted (getPassword env h secret).2 = [] := by
  unfold getPassword
  cases (h.read secret).Annotations.get? AnnotationPFXPassword with
  | some password => rfl
  | none =>
    simp only []
    split_ifs
    · cases env.clientGet (h.read secret).Namespace
          ((h.read secret).Annotations.index AnnotationPFXPasswordSecretName) with
      | error err => rfl
      | ok passwordSecret =>
        simp only []
        cases passwordSecret.Data.get?
          ((h.read secret).Annotations.index AnnotationPFXPasswordSecretKey) <;> rfl
    · rfl

theorem submitted_processSecret_converted (env : Env) (h : Heap) (secret : Ptr)
    (pfxData : Bytes) (password : String) (certPEM keyPEM caPEM : Bytes) (evs : List Event)
    (hd : (h.read secret).Data.get? (pfxKeyOf (h.read secret)) = some pfxData)
    (hp : getPassword env h secret = (.ok password, evs))
    (hc : ConvertPFXToPEM env pfxData password = .ok (certPEM, keyPEM, caPEM)) :
    submitted (processSecret env h secret).events
      = [updatedValue (h.read secret) certPEM keyPEM caPEM] := by
  have hs := submitted_getPassword env h secret
  rw [hp] at hs
  rw [processSecret_converted env h secret pfxData password certPEM keyPEM caPEM evs hd hp hc]
  simp only [submitted_append] at hs ⊢
  simp [hs, submitted]

/-- C3. When the record has a bundle at its bundle key, the password
resolves and the bundle converts to `(certPEM, keyPEM, caPEM)`,
`processSecret` submits exactly one record to the store, and that record has
`data["tls.crt"] = certPEM`, `data["tls.key"] = keyPEM`, type
`kubernetes.io/tls`, annotation `converted = "true"`, and
`data["ca.crt"] = caPEM` when `caPEM` is non-empty; when `caPEM` is empty the
key `ca.crt` is not written: it reads as it did in the original record. -/
theorem processSecret_written_record (env : Env) (h : Heap) (secret : Ptr)
    (pfxData : Bytes) (password : String) (certPEM keyPEM caPEM : Bytes) (evs : List Event)
    (hd : (h.read secret).Data.get? (pfxKeyOf (h.read secret)) = some pfxData)
    (hp : getPassword env h secret = (.ok password, evs))
    (hc : ConvertPFXToPEM env pfxData password = .ok (certPEM, keyPEM, caPEM)) :
    ∃ obj, submitted (processSecret env h secret).events = [obj] ∧
      obj.Data.get? "tls.crt" = some certPEM ∧
      obj.Data.get? "tls.key" = some keyPEM ∧
      obj.SecretType = "kubernetes.io/tls" ∧
      obj.Annotations.get? AnnotationConverted = some "true" ∧
      (caPEM ≠ [] → obj.Data.get? "ca.crt" = some caPEM) ∧
      (caPEM = [] → obj.Data.get? "ca.crt" = (h.read secret).Data.get? "ca.crt") := by
  refine ⟨updatedValue (h.read secret) certPEM keyPEM caPEM,
    submitted_processSecret_converted env h secret pfxData password certPEM keyPEM caPEM evs
      hd hp hc, ?_, ?_, rfl, ?_, ?_, ?_⟩
  · by_cases hca : caPEM.length > 0
    · simp only [updatedValue, hca, if_true]
      rw [get?_assign_other _ _ _ _ (by decide), get?_assign_other _ _ _ _ (by decide),
        get?_assign_same]
    · simp only [updatedValue, hca, if_false]
      rw [get?_assign_other _ _ _ _ (by decide), get?_assign_same]
  · by_cases hca : caPEM.length > 0
    · simp only [updatedValue, hca, if_true]
      rw [get?_assign_other _ _ _ _ (by decide), get?_assign_same]
    · simp only [updatedValue, hca, if_false]
      rw [get?_assign_same]
  · simp only [updatedValue]
    rw [get?_assign_same]
  · intro hne
    have hca : caPEM.length > 0 := List.length_pos.mpr hne
    simp only [updatedValue, hca, if_true]
    rw [get?_assign_same]
  · intro he
    subst he
    simp only [updatedValue, List.length_nil, gt_iff_lt, lt_self_iff_false, if_false]
    rw [get?_assign_other _ _ _ _ (by decide), get?_assign_other _ _ _ _ (by decide),
      get?_ensure]

theorem processSecret_written_record_witness :
    (Heap.read [webTls] 0).Data.get? (pfxKeyOf (Heap.read [webTls] 0)) = some [48, 130, 9] ∧
    getPassword sampleEnv [webTls] 0 = (.ok "changeit", []) ∧
    ConvertPFXToPEM sampleEnv [48, 130, 9] "changeit"
      = .ok ([0, 2, 1, 2], [1, 2, 48, 7], [0, 1, 3, 0, 2, 4, 5]) ∧
    ∃ obj, submitted (processSecret sampleEnv [webTls] 0).events = [obj] ∧
      obj.Data.get? "tls.crt" = some [0, 2, 1, 2] ∧
      obj.Data.get? "tls.key" = some [1, 2, 48, 7] ∧
      obj.SecretType = "kubernetes.io/tls" ∧
      obj.Annotations.get? AnnotationConverted = some "true" ∧
      (([0, 1, 3, 0, 2, 4, 5] : Bytes) ≠ [] → obj.Data.get? "ca.crt" = some [0, 1, 3, 0, 2, 4, 5]) ∧
      (([0, 1, 3, 0, 2, 4, 5] : Bytes) = [] →
        obj.Data.get? "ca.crt" = (Heap.read [webTls] 0).Data.get? "ca.crt") :=
  ⟨by decide, by decide, by decide,
    processSecret_written_record sampleEnv [webTls] 0 [48, 130, 9] "changeit" [0, 2, 1, 2]
      [1, 2, 48, 7] [0, 1, 3, 0, 2, 4, 5] [] (by decide) (by decide) (by decide)⟩

/-! ## Frame -/

/-- Objects that existed before a call of `processSecret` are not modified
by it. -/
theorem processSecret_preserves (env : Env) (h : Heap) (secret q : Ptr) (hq : q < h.length) :
    (processSecret env h secret).heap.read q = h.read q := by
  cases hd : (h.read secret).Data.get? (pfxKeyOf (h.read secret)) with
  | none => rw [processSecret_missing env h secret hd]
  | some pfxData =>
    rcases hp : getPassword env h secret with ⟨res, evs⟩
    cases res with
    | error err => rw [processSecret_password_error env h secret pfxData err evs hd hp]
    | ok password =>
      cases hc : ConvertPFXToPEM env pfxData password with
      | error err =>
        rw [processSecret_convert_error env h secret pfxData password err evs hd hp hc]
      | ok out =>
        obtain ⟨certPEM, keyPEM, caPEM⟩ := out
        rw [processSecret_converted env h secret pfxData password certPEM keyPEM caPEM evs
          hd hp hc]
        exact read_snoc_old h _ q hq

/-- C10. When `processSecret` converts a record, the one record it submits
agrees with the record read from the cache on namespace, on name, on every
annotation other than `converted`, and on every data entry other than
`tls.crt`, `tls.key` and `ca.crt`; in particular the bundle stays under its
key when that key is none of the three. Every object that existed before the
call, the cached record among them, holds the same value afterwards: the
changes were made to a copy. -/
theorem processSecret_frame (env : Env) (h : Heap) (secret : Ptr)
    (pfxData : Bytes) (password : String) (certPEM keyPEM caPEM : Bytes) (evs : List Event)
    (hvalid : secret < h.length)
    (hd : (h.read secret).Data.get? (pfxKeyOf (h.read secret)) = some pfxData)
    (hp : getPassword env h secret = (.ok password, evs))
    (hc : ConvertPFXToPEM env pfxData password = .ok (certPEM, keyPEM, caPEM)) :
    (∃ obj, submitted (processSecret env h secret).events = [obj] ∧
      obj.Namespace = (h.read secret).Namespace ∧
      obj.Name = (h.read secret).Name ∧
      (∀ k, k ≠ AnnotationConverted →
        obj.Annotations.get? k = (h.read secret).Annotations.get? k) ∧
      (∀ k, k ≠ "tls.crt" → k ≠ "tls.key" → k ≠ "ca.crt" →
        obj.Data.get? k = (h.read secret).Data.get? k) ∧
      (pfxKeyOf (h.read secret) ≠ "tls.crt" → pfxKeyOf (h.read secret) ≠ "tls.key" →
        pfxKeyOf (h.read secret) ≠ "ca.crt" →
        obj.Data.get? (pfxKeyOf (h.read secret)) = some pfxData)) ∧
    (processSecret env h secret).heap.read secret = h.read secret ∧
    (∀ q, q < h.length → (processSecret env h secret).heap.read q = h.read q) := by
  have hdata : ∀ k, k ≠ "tls.crt" → k ≠ "tls.key" → k ≠ "ca.crt" →
      (updatedValue (h.read secret) certPEM keyPEM caPEM).Data.get? k
        = (h.read secret).Data.get? k := by
    intro k h1 h2 h3
    by_cases hca : caPEM.length > 0
    · simp only [updatedValue, hca, if_true]
      rw [get?_assign_other _ _ _ _ h3, get?_assign_other _ _ _ _ h2,
        get?_assign_other _ _ _ _ h1, get?_ensure]
    · simp only [updatedValue, hca, if_false]
      rw [get?_assign_other _ _ _ _ h2, get?_assign_other _ _ _ _ h1, get?_ensure]
  refine ⟨⟨updatedValue (h.read secret) certPEM keyPEM caPEM,
    submitted_processSecret_converted env h secret pfxData password certPEM keyPEM caPEM evs
      hd hp hc, rfl, rfl, ?_, hdata, ?_⟩,
    processSecret_preserves env h secret secret hvalid,
    fun q hq => processSecret_preserves env h secret q hq⟩
  · intro k hk
    simp only [updatedValue]
    rw [get?_assign_other _ _ _ _ hk, get?_ensure]
  · intro h1 h2 h3
    rw [hdata _ h1 h2 h3, hd]

theorem processSecret_frame_witness :
    0 < List.length [webTls] ∧
    (Heap.read [webTls] 0).Data.get? (pfxKeyOf (Heap.read [webTls] 0)) = some [48, 130, 9] ∧
    getPassword sampleEnv [webTls] 0 = (.ok "changeit", []) ∧
    ConvertPFXToPEM sampleEnv [48, 130, 9] "changeit"
      = .ok ([0, 2, 1, 2], [1, 2, 48, 7], [0, 1, 3, 0, 2, 4, 5]) ∧
    (processSecret sampleEnv [webTls] 0).heap.read 0 = Heap.read [webTls] 0 :=
  ⟨by decide, by decide, by decide, by decide,
    (processSecret_frame sampleEnv [webTls] 0 [48, 130, 9] "changeit" [0, 2, 1, 2]
      [1, 2, 48, 7] [0, 1, 3, 0, 2, 4, 5] [] (by decide) (by decide) (by decide)
      (by decide)).2.1⟩

/-! ## The queue protocol -/

theorem queueCalls_append (a b : List Event) :
    queueCalls (a ++ b) = queueCalls a ++ queueCalls b := by
  induction a with
  | nil => rfl
  | cons e t ih => cases e <;> simp [queueCalls, ih]

theorem queueCalls_getPassword (env : Env) (h : Heap) (secret : Ptr) :
    queueCalls (getPassword env h secret).2 = [] := by
  unfold getPassword
  cases (h.read secret).Annotations.get? AnnotationPFXPassword with
  | some password => rfl
  | none =>
    simp only []
    split_ifs
    · cases env.clientGet (h.read secret).Namespace
          ((h.read secret).Annotations.index AnnotationPFXPasswordSecretName) with
      | error err => rfl
      | ok passwordSecret =>
        simp only []
        cases passwordSecret.Data.get?
          ((h.read secret).Annotations.index AnnotationPFXPasswordSecretKey) <;> rfl
    · rfl

theorem queueCalls_processSecret (env : Env) (h : Heap) (secret : Ptr) :
    queueCalls (processSecret env h secret).events = [] := by
  have hq := queueCalls_getPassword env h secret
  cases hd : (h.read secret).Data.get? (pfxKeyOf (h.read secret)) with
  | none => rw [processSecret_missing env h secret hd]; rfl
  | some pfxData =>
    rcases hp : getPassword env h secret with ⟨res, evs⟩
    rw [hp] at hq
    simp only at hq
    cases res with
    | error err =>
      rw [processSecret_password_error env h secret pfxData err evs hd hp]
      exact hq
    | ok password =>
      cases hc : ConvertPFXToPEM env pfxData password with
      | error err =>
        rw [processSecret_convert_error env h secret pfxData password err evs hd hp hc]
        simp [queueCalls_append, hq, queueCalls]
      | ok out =>
        obtain ⟨certPEM, keyPEM, caPEM⟩ := out
        rw [processSecret_converted env h secret pfxData password certPEM keyPEM caPEM evs
          hd hp hc]
        simp [queueCalls_append, hq, queueCalls]

theorem queueCalls_syncHandler (env : Env) (h : Heap) (key : String) :
    queueCalls (syncHandler env h key).events = [] := by
  unfold syncHandler
  cases env.splitMetaNamespaceKey key with
  | error e => rfl
  | ok nn =>
    obtain ⟨ns, name⟩ := nn
    simp only []
    cases env.listerGet ns name with
    | error err =>
      simp only []
      split_ifs <;> rfl
    | ok secret =>
      simp only []
      split_ifs
      · rfl
      · rfl
      · exact queueCalls_processSecret env h secret

/-- C8. `processNextWorkItem` returns `false` exactly when the queue reports
shutdown, and then touches nothing. For an item obtained from a live queue it
returns `true` and calls `Done` on the item exactly once, as its last queue
call. If the item is not a string, or `syncHandler` returns nil, the queue
calls are `Forget`, `Done` and there is no `AddRateLimited`. If `syncHandler`
returns an error, the queue calls are `AddRateLimited(key)`, `Done`, there is
no `Forget`, and the last effect is the report of the wrapped error to the
error sink. -/
theorem processNextWorkItem_protocol (env : Env) (h : Heap) (obj : Item) :
    processNextWorkItem env h (obj, true) = (false, ⟨none, [], h⟩) ∧
    (∀ shutdown, (processNextWorkItem env h (obj, shutdown)).1 = false ↔ shutdown = true) ∧
    (∀ r, obj = .other r →
      queueCalls (processNextWorkItem env h (obj, false)).2.events = [.forget obj, .done obj]) ∧
    (∀ key, obj = .str key → (syncHandler env h key).err = none →
      queueCalls (processNextWorkItem env h (obj, false)).2.events = [.forget obj, .done obj]) ∧
    (∀ key err, obj = .str key → (syncHandler env h key).err = some err →
      queueCalls (processNextWorkItem env h (obj, false)).2.events
        = [.addRateLimited key, .done obj] ∧
      (processNextWorkItem env h (obj, false)).2.events.getLast?
        = some (.handleError (.errorf
            ("error syncing \x27" ++ key ++ "\x27: " ++ err.Error ++ ", requeuing")))) := by
  refine ⟨rfl, ?_, ?_, ?_, ?_⟩
  · intro shutdown
    cases shutdown with
    | true => simp [processNextWorkItem]
    | false =>
      cases obj with
      | other r => simp [processNextWorkItem]
      | str key =>
        cases hr : (syncHandler env h key).err <;> simp [processNextWorkItem, hr]
  · intro r hr
    subst hr
    simp [processNextWorkItem, queueCalls]
  · intro key hk hr
    subst hk
    simp [processNextWorkItem, hr, queueCalls_append, queueCalls_syncHandler, queueCalls]
  · intro key err hk hr
    subst hk
    simp [processNextWorkItem, hr, queueCalls_append, queueCalls_syncHandler, queueCalls]

theorem processNextWorkItem_protocol_witness :
    (syncHandler sampleEnv [webTls] "default/flaky").err
      = some (.external false "cache unavailable") ∧
    queueCalls (processNextWorkItem sampleEnv [webTls] (.str "default/flaky", false)).2.events
      = [.addRateLimited "default/flaky", .done (.str "default/flaky")] :=
  ⟨by decide,
    ((processNextWorkItem_protocol sampleEnv [webTls] (.str "default/flaky")).2.2.2.2
      "default/flaky" (.external false "cache unavailable") rfl (by decide)).1⟩

/-! ## Dropped and transient outcomes -/

/-- C9. A key that cannot be split is reported and dropped: `syncHandler`
returns nil, converts nothing and writes nothing. The same holds for a key
whose lookup reports not-found. In both cases the worker calls `Forget` and
`Done` and does not re-add the key. A lookup failing with any other error
makes `syncHandler` return that very error, with no effect, and the worker
calls `AddRateLimited(key)` and `Done`. -/
theorem syncHandler_dropped_or_transient (env : Env) (h : Heap) (key : String) :
    (∀ e, env.splitMetaNamespaceKey key = .error e →
      syncHandler env h key
        = ⟨none, [.handleError (.errorf ("invalid resource key: " ++ key))], h⟩ ∧
      queueCalls (processNextWorkItem env h (.str key, false)).2.events
        = [.forget (.str key), .done (.str key)]) ∧
    (∀ ns name err, env.splitMetaNamespaceKey key = .ok (ns, name) →
      env.listerGet ns name = .error err → IsNotFound err = true →
      syncHandler env h key
        = ⟨none, [.handleError
            (.errorf ("secret \x27" ++ key ++ "\x27 in work queue no longer exists"))], h⟩ ∧
      queueCalls (processNextWorkItem env h (.str key, false)).2.events
        = [.forget (.str key), .done (.str key)]) ∧
    (∀ ns name err, env.splitMetaNamespaceKey key = .ok (ns, name) →
      env.listerGet ns name = .error err → IsNotFound err = false →
      syncHandler env h key = ⟨some err, [], h⟩ ∧
      queueCalls (processNextWorkItem env h (.str key, false)).2.events
        = [.addRateLimited key, .done (.str key)]) := by
  refine ⟨?_, ?_, ?_⟩
  · intro e he
    have hs : syncHandler env h key
        = ⟨none, [.handleError (.errorf ("invalid resource key: " ++ key))], h⟩ := by
      simp [syncHandler, he]
    refine ⟨hs, ?_⟩
    simp [processNextWorkItem, hs, queueCalls]
  · intro ns name err hsplit hget hnf
    have hs : syncHandler env h key
        = ⟨none, [.handleError
            (.errorf ("secret \x27" ++ key ++ "\x27 in work queue no longer exists"))], h⟩ := by
      simp [syncHandler, hsplit, hget, hnf]
    refine ⟨hs, ?_⟩
    simp [processNextWorkItem, hs, queueCalls]
  · intro ns name err hsplit hget hnf
    have hs : syncHandler env h key = ⟨some err, [], h⟩ := by
      simp [syncHandler, hsplit, hget, hnf]
    refine ⟨hs, ?_⟩
    simp [processNextWorkItem, hs, queueCalls]

theorem syncHandler_dropped_or_transient_witness :
    sampleEnv.splitMetaNamespaceKey "default/gone" = .ok ("default", "gone") ∧
    sampleEnv.listerGet "default" "gone"
      = .error (.external true "secret gone not found") ∧
    syncHandler sampleEnv [webTls] "default/gone"
      = ⟨none, [.handleError
          (.errorf "secret \x27default/gone\x27 in work queue no longer exists")], [webTls]⟩ :=
  ⟨by decide, by decide,
    ((syncHandler_dropped_or_transient sampleEnv [webTls] "default/gone").2.1 "default" "gone"
      (.external true "secret gone not found") (by decide) (by decide) (by decide)).1⟩

/-! ## The converter -/

theorem caBundleLoop_eq (env : Env) (caCerts : List Certificate) (caBundle : Bytes) :
    caBundleLoop env caCerts caBundle
      = caBundle ++ (caCerts.map (fun c => env.pemEncodeToMemory "CERTIFICATE" c.Raw)).flatten := by
  induction caCerts generalizing caBundle with
  | nil => simp [caBundleLoop]
  | cons c t ih =>
    have hstep : caBundleLoop env (c :: t) caBundle
        = caBundleLoop env t (caBundle ++ env.pemEncodeToMemory "CERTIFICATE" c.Raw) := rfl
    rw [hstep, ih]
    simp

theorem reparse_blocks (env : Env) (pemDecode : Bytes → Option ((String × Bytes) × Bytes))
    (hcert : ∀ b rest, pemDecode (env.pemEncodeToMemory "CERTIFICATE" b ++ rest)
      = some (("CERTIFICATE", b), rest))
    (hend : pemDecode [] = none) (certs : List Certificate) (fuel : Nat)
    (hfuel : certs.length < fuel) :
    reparse pemDecode fuel
        (certs.map (fun c => env.pemEncodeToMemory "CERTIFICATE" c.Raw)).flatten
      = certs.map (fun c => ("CERTIFICATE", c.Raw)) := by
  induction certs generalizing fuel with
  | nil =>
    cases fuel with
    | zero => simp at hfuel
    | succ n => simp [reparse, hend]
  | cons c t ih =>
    cases fuel with
    | zero => simp at hfuel
    | succ n =>
      have hn : t.length < n := by simpa using hfuel
      simp [reparse, hcert, ih n hn]

/-- C7. If the bundle and password decode to a private key, a leaf
certificate and a chain of `k ≥ 0` certificates, and the key marshals to
`keyBytes`, then `ConvertPFXToPEM` returns no error; `certPEM` is the one PEM
block `CERTIFICATE` over the leaf's raw bytes, `keyPEM` the one PEM block
`PRIVATE KEY` over `keyBytes`, and `caPEM` the concatenation, in order, of
the `k` blocks `CERTIFICATE` over the chain certificates' raw bytes, empty
when `k = 0`. For any decoder that inverts the encoder block by block and
finds nothing in empty input, re-parsing with more fuel than blocks gives
back the leaf bytes, the key bytes, and the `k` chain certificates in their
original order. -/
theorem ConvertPFXToPEM_round_trip (env : Env) (pfxData : Bytes) (password : String)
    (privateKey : PrivateKey) (certificate : Certificate) (caCerts : List Certificate)
    (keyBytes : Bytes) (pemDecode : Bytes → Option ((String × Bytes) × Bytes))
    (hdec : env.decodeChain pfxData password = .ok (privateKey, certificate, caCerts))
    (hkey : env.marshalPKCS8PrivateKey privateKey = .ok keyBytes)
    (hcert : ∀ b rest, pemDecode (env.pemEncodeToMemory "CERTIFICATE" b ++ rest)
      = some (("CERTIFICATE", b), rest))
    (hpriv : ∀ b rest, pemDecode (env.pemEncodeToMemory "PRIVATE KEY" b ++ rest)
      = some (("PRIVATE KEY", b), rest))
    (hend : pemDecode [] = none) :
    ∃ certPEM keyPEM caPEM,
      ConvertPFXToPEM env pfxData password = .ok (certPEM, keyPEM, caPEM) ∧
      certPEM = env.pemEncodeToMemory "CERTIFICATE" certificate.Raw ∧
      keyPEM = env.pemEncodeToMemory "PRIVATE KEY" keyBytes ∧
      caPEM = (caCerts.map (fun c => env.pemEncodeToMemory "CERTIFICATE" c.Raw)).flatten ∧
      (caCerts.length = 0 → caPEM = []) ∧
      (∀ fuel, 1 < fuel → reparse pemDecode fuel certPEM = [("CERTIFICATE", certificate.Raw)]) ∧
      (∀ fuel, 1 < fuel → reparse pemDecode fuel keyPEM = [("PRIVATE KEY", keyBytes)]) ∧
      (∀ fuel, caCerts.length < fuel →
        reparse pemDecode fuel caPEM = caCerts.map (fun c => ("CERTIFICATE", c.Raw))) ∧
      (∀ fuel, caCerts.length < fuel → (reparse pemDecode fuel caPEM).length = caCerts.length) := by
  have hca : (if caCerts.length > 0 then caBundleLoop env caCerts [] else [])
      = (caCerts.map (fun c => env.pemEncodeToMemory "CERTIFICATE" c.Raw)).flatten := by
    cases caCerts with
    | nil => rfl
    | cons c t => simp [caBundleLoop_eq]
  have hone : ∀ (ty : String) (b : Bytes),
      pemDecode (env.pemEncodeToMemory ty b ++ []) = some ((ty, b), []) →
      ∀ fuel, 1 < fuel → reparse pemDecode fuel (env.pemEncodeToMemory ty b) = [(ty, b)] := by
    intro ty b hb fuel hfuel
    obtain ⟨n, rfl⟩ : ∃ n, fuel = n + 2 := ⟨fuel - 2, by omega⟩
    rw [List.append_nil] at hb
    simp [reparse, hb, hend]
  refine ⟨_, _, _, ?_, rfl, rfl, rfl, ?_, hone _ _ (hcert _ _), hone _ _ (hpriv _ _), ?_, ?_⟩
  · simp only [ConvertPFXToPEM, hdec, hkey, hca]
  · intro hk
    have : caCerts = [] := List.length_eq_zero.mp hk
    subst this
    rfl
  · intro fuel hfuel
    exact reparse_blocks env pemDecode hcert hend caCerts fuel hfuel
  · intro fuel hfuel
    rw [reparse_blocks env pemDecode hcert hend caCerts fuel hfuel, List.length_map]

theorem toyPemDecode_toyPemEncode_cert (b rest : Bytes) :
    toyPemDecode (toyPemEncode "CERTIFICATE" b ++ rest) = some (("CERTIFICATE", b), rest) := by
  simp [toyPemDecode, toyPemEncode]

theorem toyPemDecode_toyPemEncode_key (b rest : Bytes) :
    toyPemDecode (toyPemEncode "PRIVATE KEY" b ++ rest) = some (("PRIVATE KEY", b), rest) := by
  simp [toyPemDecode, toyPemEncode]

theorem ConvertPFXToPEM_round_trip_witness :
    sampleEnv.decodeChain [48, 130, 9] "changeit"
      = .ok (⟨[7]⟩, ⟨[1, 2]⟩, [⟨[3]⟩, ⟨[4, 5]⟩]) ∧
    sampleEnv.marshalPKCS8PrivateKey ⟨[7]⟩ = .ok [48, 7] ∧
    ∃ certPEM keyPEM caPEM,
      ConvertPFXToPEM sampleEnv [48, 130, 9] "changeit" = .ok (certPEM, keyPEM, caPEM) ∧
      certPEM = sampleEnv.pemEncodeToMemory "CERTIFICATE" [1, 2] ∧
      keyPEM = sampleEnv.pemEncodeToMemory "PRIVATE KEY" [48, 7] ∧
      caPEM = (List.map (fun c => sampleEnv.pemEncodeToMemory "CERTIFICATE" c.Raw)
        [(⟨[3]⟩ : Certificate), ⟨[4, 5]⟩]).flatten ∧
      (List.length [(⟨[3]⟩ : Certificate), ⟨[4, 5]⟩] = 0 → caPEM = []) ∧
      (∀ fuel, 1 < fuel → reparse toyPemDecode fuel certPEM = [("CERTIFICATE", [1, 2])]) ∧
      (∀ fuel, 1 < fuel → reparse toyPemDecode fuel keyPEM = [("PRIVATE KEY", [48, 7])]) ∧
      (∀ fuel, List.length [(⟨[3]⟩ : Certificate), ⟨[4, 5]⟩] < fuel →
        reparse toyPemDecode fuel caPEM
          = List.map (fun c => ("CERTIFICATE", c.Raw)) [(⟨[3]⟩ : Certificate), ⟨[4, 5]⟩]) ∧
      (∀ fuel, List.length [(⟨[3]⟩ : Certificate), ⟨[4, 5]⟩] < fuel →
        (reparse toyPemDecode fuel caPEM).length
          = List.length [(⟨[3]⟩ : Certificate), ⟨[4, 5]⟩]) :=
  ⟨by decide, by decide,
    ConvertPFXToPEM_round_trip sampleEnv [48, 130, 9] "changeit" ⟨[7]⟩ ⟨[1, 2]⟩
      [⟨[3]⟩, ⟨[4, 5]⟩] [48, 7] toyPemDecode (by decide) (by decide)
      toyPemDecode_toyPemEncode_cert toyPemDecode_toyPemEncode_key (by decide)⟩

/-! ## One-shot reconciliation -/

theorem take_snoc_length (h : Heap) (x : Secret) : List.take h.length (h ++ [x]) = h := by
  simp

theorem processSecret_writes (env : Env) (h : Heap) (secret : Ptr) :
    (processSecret env h secret).heap.take h.length = h ∧
    (writesOf (processSecret env h secret) = [] ∨
      ∃ certPEM keyPEM caPEM,
        writesOf (processSecret env h secret)
          = [updatedValue (h.read secret) certPEM keyPEM caPEM]) := by
  cases hd : (h.read secret).Data.get? (pfxKeyOf (h.read secret)) with
  | none =>
    rw [processSecret_missing env h secret hd]
    exact ⟨List.take_length h, Or.inl rfl⟩
  | some pfxData =>
    rcases hp : getPassword env h secret with ⟨res, evs⟩
    cases res with
    | error err =>
      rw [processSecret_password_error env h secret pfxData err evs hd hp]
      exact ⟨List.take_length h, Or.inl rfl⟩
    | ok password =>
      cases hc : ConvertPFXToPEM env pfxData password with
      | error err =>
        rw [processSecret_convert_error env h secret pfxData password err evs hd hp hc]
        exact ⟨List.take_length h, Or.inl rfl⟩
      | ok out =>
        obtain ⟨certPEM, keyPEM, caPEM⟩ := out
        have hsub := submitted_processSecret_converted env h secret pfxData password certPEM
          keyPEM caPEM evs hd hp hc
        have hEq := processSecret_converted env h secret pfxData password certPEM keyPEM caPEM
          evs hd hp hc
        refine ⟨by rw [hEq]; exact take_snoc_length h _, ?_⟩
        cases hu : (processSecret env h secret).err with
        | some e => left; simp [writesOf, hu]
        | none => right; exact ⟨certPEM, keyPEM, caPEM, by simp [writesOf, hu, hsub]⟩

theorem syncHandler_writes (env : Env) (h : Heap) (key : String) :
    (syncHandler env h key).heap.take h.length = h ∧
    (writesOf (syncHandler env h key) = [] ∨
      ∃ ns name secret certPEM keyPEM caPEM,
        env.splitMetaNamespaceKey key = .ok (ns, name) ∧
        env.listerGet ns name = .ok secret ∧
        (h.read secret).Annotations.get? AnnotationPFXConvert = some "true" ∧
        (h.read secret).Annotations.index AnnotationConverted ≠ "true" ∧
        writesOf (syncHandler env h key)
          = [updatedValue (h.read secret) certPEM keyPEM caPEM]) := by
  cases hsplit : env.splitMetaNamespaceKey key with
  | error e =>
    have hs : syncHandler env h key
        = ⟨none, [.handleError (.errorf ("invalid resource key: " ++ key))], h⟩ := by
      simp [syncHandler, hsplit]
    rw [hs]
    exact ⟨List.take_length h, Or.inl rfl⟩
  | ok nn =>
    obtain ⟨ns, name⟩ := nn
    cases hget : env.listerGet ns name with
    | error err =>
      by_cases hnf : IsNotFound err = true
      · have hs : syncHandler env h key
            = ⟨none, [.handleError (.errorf
                ("secret \x27" ++ key ++ "\x27 in work queue no longer exists"))], h⟩ := by
          simp [syncHandler, hsplit, hget, hnf]
        rw [hs]
        exact ⟨List.take_length h, Or.inl rfl⟩
      · have hs : syncHandler env h key = ⟨some err, [], h⟩ := by
          simp [syncHandler, hsplit, hget, hnf]
        rw [hs]
        exact ⟨List.take_length h, Or.inl rfl⟩
    | ok secret =>
      by_cases he : (h.read secret).Annotations.get? AnnotationPFXConvert = some "true" ∧
          (h.read secret).Annotations.index AnnotationConverted ≠ "true"
      · rw [syncHandler_of_eligible env h key ns name secret hsplit hget he.1 he.2]
        refine ⟨(processSecret_writes env h secret).1, ?_⟩
        rcases (processSecret_writes env h secret).2 with hw | ⟨c, k, ca, hw⟩
        · exact Or.inl hw
        · exact Or.inr ⟨ns, name, secret, c, k, ca, rfl, hget, he.1, he.2, hw⟩
      · rw [syncHandler_of_ineligible env h key ns name secret hsplit hget he]
        exact ⟨List.take_length h, Or.inl rfl⟩

theorem updatedValue_convert (s : Secret) (certPEM keyPEM caPEM : Bytes) :
    (updatedValue s certPEM keyPEM caPEM).Annotations.get? AnnotationPFXConvert
      = s.Annotations.get? AnnotationPFXConvert := by
  simp only [updatedValue]
  rw [get?_assign_other _ _ _ _ (by decide), get?_ensure]

theorem updatedValue_converted (s : Secret) (certPEM keyPEM caPEM : Bytes) :
    (updatedValue s certPEM keyPEM caPEM).Annotations.get? AnnotationConverted = some "true" := by
  simp only [updatedValue]
  rw [get?_assign_same]

theorem cacheIndex_some (ns name : String) (cache : List Secret) (p : Ptr)
    (hp : cacheIndex ns name cache = some p) :
    p < cache.length ∧ (Heap.read cache p).Namespace = ns ∧ (Heap.read cache p).Name = name ∧
      Heap.read cache p ∈ cache := by
  induction cache generalizing p with
  | nil => simp [cacheIndex] at hp
  | cons s t ih =>
    by_cases hs : s.Namespace = ns ∧ s.Name = name
    · simp only [cacheIndex, hs, and_self, if_true, Option.some.injEq] at hp
      subst hp
      simp [Heap.read, hs]
    · simp only [cacheIndex, hs, if_false, Option.map_eq_some'] at hp
      obtain ⟨i, hi, rfl⟩ := hp
      obtain ⟨h1, h2, h3, h4⟩ := ih i hi
      refine ⟨by simpa using h1, ?_, ?_, ?_⟩
      · simpa [Heap.read] using h2
      · simpa [Heap.read] using h3
      · have : Heap.read (s :: t) (i + 1) = Heap.read t i := by simp [Heap.read]
        rw [this]
        exact List.mem_cons_of_mem _ h4

theorem reconcileStep_cases (base : Env) (cache : List Secret) (key : String) :
    reconcileStep base cache key = (cache, []) ∨
    ∃ p certPEM keyPEM caPEM, Heap.read cache p ∈ cache ∧
      (Heap.read cache p).Annotations.index AnnotationConverted ≠ "true" ∧
      reconcileStep base cache key
        = (applyWrite cache (updatedValue (Heap.read cache p) certPEM keyPEM caPEM),
            [updatedValue (Heap.read cache p) certPEM keyPEM caPEM]) := by
  obtain ⟨hheap, hw⟩ := syncHandler_writes (withCache base cache) cache key
  rcases hw with hw | ⟨ns, name, secret, c, k, ca, _, hget, _, hnot, hw⟩
  · left
    simp [reconcileStep, hw, hheap]
  · right
    have hidx : cacheIndex ns name cache = some secret := by
      simp only [withCache] at hget
      cases hci : cacheIndex ns name cache with
      | none => simp [hci] at hget
      | some q =>
        simp only [hci, Except.ok.injEq] at hget
        rw [hget]
    refine ⟨secret, c, k, ca, (cacheIndex_some ns name cache secret hidx).2.2.2, hnot, ?_⟩
    simp [reconcileStep, hw, hheap]

theorem mem_applyWrite (cache : List Secret) (obj s : Secret) (hs : s ∈ applyWrite cache obj) :
    s = obj ∨ (s ∈ cache ∧ ¬ (s.Namespace = obj.Namespace ∧ s.Name = obj.Name)) := by
  simp only [applyWrite, List.mem_map] at hs
  obtain ⟨t, ht, rfl⟩ := hs
  by_cases hc : t.Namespace = obj.Namespace ∧ t.Name = obj.Name
  · left; simp [hc]
  · right
    rw [if_neg hc]
    exact ⟨ht, hc⟩

theorem index_converted_updatedValue (s : Secret) (certPEM keyPEM caPEM : Bytes) :
    (updatedValue s certPEM keyPEM caPEM).Annotations.index AnnotationConverted = "true" := by
  simp [GoMap.index, updatedValue_converted]

/-- A record whose cached copies all carry the marker is not written by a
reconciliation, and keeps the marker. -/
theorem reconcileStep_marked (base : Env) (cache : List Secret) (key ns name : String)
    (hm : ∀ s ∈ cache, s.Namespace = ns → s.Name = name →
      s.Annotations.index AnnotationConverted = "true") :
    writesTo ns name (reconcileStep base cache key).2 = [] ∧
    (∀ s ∈ (reconcileStep base cache key).1, s.Namespace = ns → s.Name = name →
      s.Annotations.index AnnotationConverted = "true") := by
  rcases reconcileStep_cases base cache key with hEq | ⟨p, c, k, ca, hmem, hnot, hEq⟩
  · rw [hEq]
    exact ⟨rfl, hm⟩
  · rw [hEq]
    have hid : ¬ ((Heap.read cache p).Namespace = ns ∧ (Heap.read cache p).Name = name) :=
      fun hid => hnot (hm _ hmem hid.1 hid.2)
    constructor
    · have : ¬ ((updatedValue (Heap.read cache p) c k ca).Namespace = ns ∧
          (updatedValue (Heap.read cache p) c k ca).Name = name) := hid
      simp [writesTo, this]
    · intro s hs h1 h2
      rcases mem_applyWrite cache _ s hs with rfl | ⟨hin, _⟩
      · exact index_converted_updatedValue _ _ _ _
      · exact hm s hin h1 h2

/-- A reconciliation writes a record at most once, and a record it wrote
carries the marker in the cache afterwards. -/
theorem reconcileStep_write (base : Env) (cache : List Secret) (key ns name : String) :
    (writesTo ns name (reconcileStep base cache key).2).length ≤ 1 ∧
    (writesTo ns name (reconcileStep base cache key).2 ≠ [] →
      ∀ s ∈ (reconcileStep base cache key).1, s.Namespace = ns → s.Name = name →
        s.Annotations.index AnnotationConverted = "true") := by
  rcases reconcileStep_cases base cache key with hEq | ⟨p, c, k, ca, hmem, hnot, hEq⟩
  · rw [hEq]
    exact ⟨by simp [writesTo], fun hne => absurd rfl hne⟩
  · rw [hEq]
    constructor
    · simp only [writesTo]
      exact (List.length_filter_le _ _).trans (by simp)
    · intro hne s hs h1 h2
      rcases mem_applyWrite cache _ s hs with rfl | ⟨_, hdiff⟩
      · exact index_converted_updatedValue _ _ _ _
      · exfalso
        by_cases hid : (updatedValue (Heap.read cache p) c k ca).Namespace = ns ∧
            (updatedValue (Heap.read cache p) c k ca).Name = name
        · exact hdiff ⟨h1.trans hid.1.symm, h2.trans hid.2.symm⟩
        · exact hne (by simp [writesTo, hid])

theorem writesTo_append (ns name : String) (a b : List Secret) :
    writesTo ns name (a ++ b) = writesTo ns name a ++ writesTo ns name b := by
  simp [writesTo]

theorem reconcileAll_marked (steps : List (Env × String)) (cache : List Secret)
    (ns name : String)
    (hm : ∀ s ∈ cache, s.Namespace = ns → s.Name = name →
      s.Annotations.index AnnotationConverted = "true") :
    writesTo ns name (reconcileAll steps cache).2 = [] := by
  induction steps generalizing cache with
  | nil => rfl
  | cons st rest ih =>
    obtain ⟨base, key⟩ := st
    obtain ⟨h1, h2⟩ := reconcileStep_marked base cache key ns name hm
    simp only [reconcileAll, writesTo_append, h1, List.nil_append]
    exact ih _ h2

theorem reconcileAll_at_most_once (steps : List (Env × String)) (cache : List Secret)
    (ns name : String) : (writesTo ns name (reconcileAll steps cache).2).length ≤ 1 := by
  induction steps generalizing cache with
  | nil => simp [reconcileAll, writesTo]
  | cons st rest ih =>
    obtain ⟨base, key⟩ := st
    obtain ⟨h1, h2⟩ := reconcileStep_write base cache key ns name
    simp only [reconcileAll, writesTo_append, List.length_append]
    by_cases hw : writesTo ns name (reconcileStep base cache key).2 = []
    · rw [hw]
      simpa using ih _
    · rw [reconcileAll_marked rest _ ns name (h2 hw)]
      simpa using h1

/-- C2. Reconciliation is one-shot. A record that `syncHandler` wrote (it
returned nil and submitted the record) has `convert` still `"true"` and
`converted` equal to `"true"`; hence `syncHandler`, run on any key whose
cache lookup yields that record, returns nil with no effect: no conversion,
no write. Consequently, in any sequence of reconciliations over a cache that
takes up each accepted write, with arbitrary keys and arbitrary collaborators
at each step, every record is written at most once. -/
theorem reconcile_one_shot (env : Env) (h : Heap) (key : String) (obj : Secret)
    (hw : obj ∈ writesOf (syncHandler env h key)) :
    obj.Annotations.get? AnnotationPFXConvert = some "true" ∧
    obj.Annotations.get? AnnotationConverted = some "true" ∧
    (∀ (env2 : Env) (h2 : Heap) (key2 ns name : String) (p : Ptr),
      env2.splitMetaNamespaceKey key2 = .ok (ns, name) → env2.listerGet ns name = .ok p →
      h2.read p = obj → syncHandler env2 h2 key2 = ⟨none, [], h2⟩) ∧
    (∀ (steps : List (Env × String)) (cache : List Secret) (ns name : String),
      (writesTo ns name (reconcileAll steps cache).2).length ≤ 1) := by
  have hobj : obj.Annotations.get? AnnotationPFXConvert = some "true" ∧
      obj.Annotations.get? AnnotationConverted = some "true" := by
    rcases (syncHandler_writes env h key).2 with hnil | ⟨ns, name, s, c, k, ca, _, _, hc, _, hEq⟩
    · rw [hnil] at hw
      simp at hw
    · rw [hEq] at hw
      simp only [List.mem_singleton] at hw
      subst hw
      exact ⟨(updatedValue_convert _ _ _ _).trans hc, updatedValue_converted _ _ _ _⟩
  refine ⟨hobj.1, hobj.2, ?_, reconcileAll_at_most_once⟩
  intro env2 h2 key2 ns name p hsplit hget hread
  apply syncHandler_of_ineligible env2 h2 key2 ns name p hsplit hget
  rw [hread]
  intro hel
  exact hel.2 (by simp [GoMap.index, hobj.2])

theorem reconcile_one_shot_witness :
    webTlsConverted ∈ writesOf (syncHandler sampleEnv [webTls] "default/web-tls") ∧
    syncHandler sampleEnv [webTlsConverted] "default/web-tls" = ⟨none, [], [webTlsConverted]⟩ ∧
    (reconcileAll [(sampleEnv, "default/web-tls"), (sampleEnv, "default/web-tls")] [webTls]).2
      = [webTlsConverted] :=
  ⟨by decide,
    (reconcile_one_shot sampleEnv [webTls] "default/web-tls" webTlsConverted (by decide)).2.2.1
      sampleEnv [webTlsConverted] "default/web-tls" "default" "web-tls" 0 (by decide)
      (by decide) (by decide),
    by decide⟩

end PfxTls
